import Mathlib

/-!
Shallow embedding of the JavaString repository (src/src/lib.rs and
src/src/raw_string.rs) and verification of its specification claims.

The model fixes a 64-bit little-endian host (the configuration the crate
documentation describes: 15 inline bytes, 16-byte struct).  The two-word
struct RawJavaString (repr C: len then data) is represented by its 16
physical bytes together with the contents of the single heap allocation it
may own.  Machine words are Nat values below 2 ^ 64; usize to_be / from_be
on a little-endian host are a byte swap.  Fallible or undefined executions
(index panics, out-of-bounds copies) are modelled with Option, where none
means the operation panics or performs an out-of-bounds memory access.
-/

set_option autoImplicit false
set_option maxRecDepth 100000

namespace JStr

/-- Number of bytes in a machine word (usize) on the modelled 64-bit host. -/
def usizeBytes : Nat := 8

/-- The little-endian physical bytes of a usize value as stored by a
little-endian host: index 0 is the lowest address and holds the least
significant byte.  Values at or above 2 ^ 64 are truncated, as storing a
word does. -/
def leBytes (n : Nat) : List Nat :=
  [n % 256, n / 256 % 256, n / 256 ^ 2 % 256, n / 256 ^ 3 % 256,
   n / 256 ^ 4 % 256, n / 256 ^ 5 % 256, n / 256 ^ 6 % 256, n / 256 ^ 7 % 256]

/-- The value of a little-endian byte list. -/
def leVal : List Nat → Nat
  | [] => 0
  | b :: bs => b + 256 * leVal bs

/-- usize::to_be and usize::from_be on a little-endian host: the byte swap
of a 64-bit word. -/
def byteswap64 (n : Nat) : Nat := leVal (leBytes n).reverse

/-! ## The model of src/src/raw_string.rs -/

/-- The fixed even address that the model allocator hands out
(alloc with Layout::from_size_align_unchecked(len, 2)).  Any even, nonzero
word value is a faithful stand-in for a successful 2-aligned allocation;
allocation failure is fatal at this layer and is not modelled. -/
def heapBaseAddr : Nat := 2 ^ 32

/-- The repr(C) struct RawJavaString { len: usize, data: NonNull of u8 },
modelled by its 16 physical bytes (field bytes, index 0 = lowest address:
bytes 0..8 are the len field, bytes 8..16 the data field) plus the
contents of the single heap allocation the string may own (field heap,
empty when no allocation is owned). -/
structure RawJavaString where
  bytes : List Nat
  heap : List Nat
  deriving DecidableEq

namespace RawJavaString

/-- The usize value of the len field. -/
def lenField (s : RawJavaString) : Nat := leVal (s.bytes.take 8)

/-- The raw bit pattern stored in the data field (NonNull as usize). -/
def dataField (s : RawJavaString) : Nat := leVal (s.bytes.drop 8)

/-- max_intern_len: mem::size_of::(usize) * 2 - 1. -/
def max_intern_len : Nat := usizeBytes * 2 - 1

/-- read_ptr: usize::from_be(self.data.as_ptr() as usize). -/
def read_ptr (s : RawJavaString) : Nat := byteswap64 (dataField s)

/-- is_interned: ((self.read_ptr() as usize) % 2) == 1. -/
def is_interned (s : RawJavaString) : Bool := read_ptr s % 2 == 1

/-- write_ptr: stores usize::to_be(ptr) in the data field through
NonNull::new, panicking (none) when the stored pattern is null. -/
def write_ptr (s : RawJavaString) (ptr : Nat) : Option RawJavaString :=
  if byteswap64 ptr = 0 then none
  else some ⟨s.bytes.take 8 ++ leBytes (byteswap64 ptr), s.heap⟩

/-- write_ptr_unchecked: stores usize::to_be(ptr) in the data field with
NonNull::new_unchecked (no null check). -/
def write_ptr_unchecked (s : RawJavaString) (ptr : Nat) : RawJavaString :=
  ⟨s.bytes.take 8 ++ leBytes (byteswap64 ptr), s.heap⟩

/-- len: interned strings decode the length from the low byte of the
decoded pointer ((read_ptr as u8) >> 1); otherwise the len field. -/
def len (s : RawJavaString) : Nat :=
  if is_interned s then (read_ptr s % 256) >>> 1 else lenField s

/-- get_bytes: for an interned string, the leading (read_ptr as u8) >> 1
bytes of the struct itself (a raw read starting at the len field); for a
heap string, lenField bytes of the owned allocation. -/
def get_bytes (s : RawJavaString) : List Nat :=
  if is_interned s then s.bytes.take ((read_ptr s % 256) >>> 1)
  else s.heap.take (lenField s)

/-- new: len = 0, data = to_be(1) (the canonical empty interned string). -/
def new : RawJavaString := ⟨leBytes 0 ++ leBytes (byteswap64 1), []⟩

end RawJavaString

/-- One core::ptr::copy_nonoverlapping(src, dst, count) into a buffer,
writing src (of length count) at offset pos. -/
def writeBytesAt (buf : List Nat) (pos : Nat) (src : List Nat) : List Nat :=
  buf.take pos ++ src ++ buf.drop (pos + src.length)

/-- The copy loop of from_bytes_array_inline: for each slice in order,
copy_nonoverlapping(bytes.as_ptr(), write_location, len) and then advance
write_location by len, where len is the TOTAL length and stays fixed
across iterations (this is what the source does).  A copy that would read
past the end of the slice or write past the end of the destination buffer
is an out-of-bounds access: the model returns none (undefined behavior). -/
def copySlices : List (List Nat) → List Nat → Nat → Nat → Option (List Nat)
  | [], buf, _, _ => some buf
  | s :: rest, buf, pos, count =>
    if count ≤ s.length ∧ pos + count ≤ buf.length then
      copySlices rest (writeBytesAt buf pos (s.take count)) (pos + count) count
    else none

/-- The total length fold of from_bytes_array_inline. -/
def sumLens (l : List (List Nat)) : Nat := (l.map List.length).sum

namespace RawJavaString

/-- from_bytes_array_inline: starts from new(); computes the total length;
if it fits, writes the inline tag (len << 1) + 1 through
write_ptr_unchecked and runs the copy loop over the struct bytes
themselves (write_location = address of the len field); otherwise
allocates a len-byte buffer (modelled at heapBaseAddr, uninitialized
bytes modelled as 0), sets the len field, stores the encoded pointer, and
runs the copy loop over the buffer. -/
def from_bytes_array_inline (bytes_list : List (List Nat)) : Option RawJavaString :=
  let len := sumLens bytes_list
  if len ≤ max_intern_len then
    match copySlices bytes_list
        (leBytes 0 ++ leBytes (byteswap64 ((len <<< 1) + 1))) 0 len with
    | some buf => some ⟨buf, []⟩
    | none => none
  else
    match copySlices bytes_list (List.replicate len 0) 0 len with
    | some hp => some ⟨leBytes len ++ leBytes (byteswap64 heapBaseAddr), hp⟩
    | none => none

/-- from_bytes_array: public wrapper over from_bytes_array_inline. -/
def from_bytes_array (bytes_list : List (List Nat)) : Option RawJavaString :=
  from_bytes_array_inline bytes_list

/-- from_bytes: from_bytes_array_inline on the one-element list. -/
def from_bytes (bytes : List Nat) : Option RawJavaString :=
  from_bytes_array_inline [bytes]

/-- set_bytes: self = Self::from_bytes(bytes) (the old value is dropped). -/
def set_bytes (_s : RawJavaString) (bytes : List Nat) : Option RawJavaString :=
  from_bytes bytes

/-- Clone for RawJavaString: Self::from_bytes(self.get_bytes()). -/
def clone (s : RawJavaString) : Option RawJavaString :=
  from_bytes (get_bytes s)

end RawJavaString

/-! ## UTF-8 (model of the core::str decoding contract used by lib.rs) -/

/-- Whether a byte is a UTF-8 continuation byte (0x80..=0xBF). -/
def contB (b : Nat) : Bool := 128 ≤ b && b ≤ 191

/-- Decode the first UTF-8 scalar value of a byte list, returning the
code point and its encoded width, or none if the list starts with an
invalid (or truncated) sequence.  This follows the standard well-formed
UTF-8 table: no overlong forms, no surrogates, nothing above 0x10FFFF. -/
def utf8DecodeOne : List Nat → Option (Nat × Nat)
  | [] => none
  | b0 :: rest =>
    if b0 ≤ 127 then some (b0, 1)
    else if 194 ≤ b0 && b0 ≤ 223 then
      match rest with
      | b1 :: _ =>
        if contB b1 then some ((b0 - 192) * 64 + (b1 - 128), 2) else none
      | _ => none
    else if 224 ≤ b0 && b0 ≤ 239 then
      match rest with
      | b1 :: b2 :: _ =>
        let lo1 := if b0 = 224 then 160 else 128
        let hi1 := if b0 = 237 then 159 else 191
        if lo1 ≤ b1 && b1 ≤ hi1 && contB b2 then
          some ((b0 - 224) * 4096 + (b1 - 128) * 64 + (b2 - 128), 3)
        else none
      | _ => none
    else if 240 ≤ b0 && b0 ≤ 244 then
      match rest with
      | b1 :: b2 :: b3 :: _ =>
        let lo1 := if b0 = 240 then 144 else 128
        let hi1 := if b0 = 244 then 143 else 191
        if lo1 ≤ b1 && b1 ≤ hi1 && contB b2 && contB b3 then
          some ((b0 - 240) * 262144 + (b1 - 128) * 4096 + (b2 - 128) * 64
            + (b3 - 128), 4)
        else none
      | _ => none
    else none

/-- Fuelled decoding of a whole byte list into (code point, width) pairs;
the fuel only needs to be at least the list length. -/
def utf8DecodeFrom : Nat → List Nat → Option (List (Nat × Nat))
  | _, [] => some []
  | 0, _ :: _ => none
  | fuel + 1, l =>
    match utf8DecodeOne l with
    | some (c, w) => (utf8DecodeFrom fuel (l.drop w)).map (fun cs => (c, w) :: cs)
    | none => none

/-- Decode a byte list into its UTF-8 scalar values with widths, or none
if the list is not well-formed UTF-8. -/
def utf8DecodeList (l : List Nat) : Option (List (Nat × Nat)) :=
  utf8DecodeFrom l.length l

/-- Whether a byte list is well-formed UTF-8. -/
def utf8Valid (l : List Nat) : Bool := (utf8DecodeList l).isSome

/-- Length of the longest well-formed UTF-8 prefix (fuelled loop). -/
def utf8ValidUpToFrom : Nat → Nat → List Nat → Nat
  | _, pos, [] => pos
  | 0, pos, _ :: _ => pos
  | fuel + 1, pos, l =>
    match utf8DecodeOne l with
    | some (_, w) => utf8ValidUpToFrom fuel (pos + w) (l.drop w)
    | none => pos

/-- Length of the longest well-formed UTF-8 prefix: the valid_up_to value
of the core::str::Utf8Error contract (the byte offset of the first
invalid sequence). -/
def utf8ValidUpTo (l : List Nat) : Nat := utf8ValidUpToFrom l.length 0 l

/-- str::is_char_boundary on the underlying bytes: 0 and the total length
are boundaries; an interior index is a boundary iff the byte there is not
a continuation byte; past-the-end indices are not boundaries. -/
def is_char_boundary (b : List Nat) (i : Nat) : Bool :=
  if i = 0 then true
  else if i = b.length then true
  else if i < b.length then !contB (b.getD i 0)
  else false

/-! ## The model of src/src/lib.rs -/

/-- Model of the core::str::Utf8Error value returned by
core::str::from_utf8: it carries the byte offset of the first invalid
sequence (valid_up_to) and nothing else — in particular not the input
bytes. -/
structure Utf8Error where
  valid_up_to : Nat
  deriving DecidableEq

/-- The wrapper struct JavaString { data: RawJavaString }. -/
structure JavaString where
  data : RawJavaString
  deriving DecidableEq

namespace JavaString

/-- JavaString::new. -/
def new : JavaString := ⟨RawJavaString.new⟩

/-- JavaString::with_capacity: ignores its argument and returns new(). -/
def with_capacity (_len : Nat) : JavaString := new

/-- JavaString::as_bytes: self.data.get_bytes(). -/
def as_bytes (s : JavaString) : List Nat := s.data.get_bytes

/-- JavaString::len (via Deref to str): the byte length of the content. -/
def len (s : JavaString) : Nat := (as_bytes s).length

/-- JavaString::capacity: always returns self.len(). -/
def capacity (s : JavaString) : Nat := len s

/-- JavaString::reserve: does nothing. -/
def reserve (s : JavaString) (_additional : Nat) : JavaString := s

/-- JavaString::reserve_exact: does nothing. -/
def reserve_exact (s : JavaString) (_additional : Nat) : JavaString := s

/-- JavaString::shrink_to_fit: does nothing. -/
def shrink_to_fit (s : JavaString) : JavaString := s

/-- JavaString::shrink_to: does nothing. -/
def shrink_to (s : JavaString) (_min_capacity : Nat) : JavaString := s

/-- JavaString::from_utf8: builds the RawJavaString first (from_bytes),
then validates its bytes with core::str::from_utf8; on failure the
Utf8Error (and only it) is returned and the temporary handle is dropped. -/
def from_utf8 (bytes : List Nat) : Option (Except Utf8Error JavaString) :=
  match RawJavaString.from_bytes bytes with
  | none => none
  | some raw =>
    if utf8Valid raw.get_bytes then some (Except.ok ⟨raw⟩)
    else some (Except.error ⟨utf8ValidUpTo raw.get_bytes⟩)

/-- JavaString::push_str: self.data =
RawJavaString::from_bytes_array(&[self.as_bytes(), string.as_bytes()]). -/
def push_str (s : JavaString) (string : List Nat) : Option JavaString :=
  (RawJavaString.from_bytes_array [as_bytes s, string]).map JavaString.mk

/-- JavaString::truncate: self.data =
RawJavaString::from_bytes(&self.as_bytes()[0..new_len]).  The byte-slice
index panics (none) when new_len exceeds the length; there is no
char-boundary check. -/
def truncate (s : JavaString) (new_len : Nat) : Option JavaString :=
  if new_len ≤ (as_bytes s).length then
    (RawJavaString.from_bytes ((as_bytes s).take new_len)).map JavaString.mk
  else none

/-- JavaString::pop: take the last char of the content (none when the
content is not valid UTF-8, since chars() is then undefined), return it
and rebuild from the first len - ch.len_utf8() bytes; on an empty string
return None without touching the handle. -/
def pop (s : JavaString) : Option (Option Nat × JavaString) :=
  match utf8DecodeList (as_bytes s) with
  | none => none
  | some cs =>
    match cs.getLast? with
    | none => some (none, s)
    | some (c, w) =>
      (RawJavaString.from_bytes ((as_bytes s).take ((as_bytes s).length - w))).map
        (fun r => (some c, ⟨r⟩))

/-- JavaString::remove: str slicing self[idx..] panics (none) off a char
boundary; an empty tail panics (cannot remove a char from the end); then
the result is rebuilt with from_bytes_array on the two remaining pieces. -/
def remove (s : JavaString) (idx : Nat) : Option (Nat × JavaString) :=
  if is_char_boundary (as_bytes s) idx then
    match utf8DecodeOne ((as_bytes s).drop idx) with
    | none => none
    | some (c, w) =>
      (RawJavaString.from_bytes_array
        [(as_bytes s).take idx, (as_bytes s).drop (idx + w)]).map
        (fun r => (c, ⟨r⟩))
  else none

end JavaString

/-! ## Reachability: the states produced by the construction and mutation
operations of the two layers -/

/-- A list of honest byte values (what a Rust byte slice holds). -/
def ByteOk (b : List Nat) : Prop := ∀ x ∈ b, x < 256

instance byteOkDec (b : List Nat) : Decidable (ByteOk b) :=
  List.decidableBAll (fun x => x < 256) b

/-- A RawJavaString in canonical form: the result of from_bytes on some
byte slice.  Every constructor and every successful mutation of the
library produces such a value. -/
def GoodRaw (s : RawJavaString) : Prop :=
  ∃ b, ByteOk b ∧ b.length < 2 ^ 64 ∧ RawJavaString.from_bytes b = some s

/-- The RawJavaString values reachable through the operations of the
library: new, from_bytes, from_bytes_array, set_bytes, and the JavaString
wrapper operations push_str, truncate, pop, remove, clone.  Each mutation
hypothesis requires the operation to complete (= some), i.e. not to panic
or perform an out-of-bounds access; byte-slice arguments carry honest
bytes and usize-representable lengths. -/
inductive Reachable : RawJavaString → Prop where
  | new : Reachable RawJavaString.new
  | ofBytes (b : List Nat) (s : RawJavaString) :
      ByteOk b → b.length < 2 ^ 64 →
      RawJavaString.from_bytes b = some s → Reachable s
  | ofArray (l : List (List Nat)) (s : RawJavaString) :
      (∀ b ∈ l, ByteOk b) → sumLens l < 2 ^ 64 →
      RawJavaString.from_bytes_array l = some s → Reachable s
  | setStep (s s' : RawJavaString) (b : List Nat) :
      Reachable s → ByteOk b → b.length < 2 ^ 64 →
      RawJavaString.set_bytes s b = some s' → Reachable s'
  | pushStep (s s' : RawJavaString) (b : List Nat) :
      Reachable s → ByteOk b →
      (RawJavaString.get_bytes s).length + b.length < 2 ^ 64 →
      JavaString.push_str ⟨s⟩ b = some ⟨s'⟩ → Reachable s'
  | truncStep (s s' : RawJavaString) (n : Nat) :
      Reachable s → JavaString.truncate ⟨s⟩ n = some ⟨s'⟩ → Reachable s'
  | popStep (s s' : RawJavaString) (c : Option Nat) :
      Reachable s → JavaString.pop ⟨s⟩ = some (c, ⟨s'⟩) → Reachable s'
  | removeStep (s s' : RawJavaString) (i c : Nat) :
      Reachable s → JavaString.remove ⟨s⟩ i = some (c, ⟨s'⟩) → Reachable s'
  | cloneStep (s s' : RawJavaString) :
      Reachable s → RawJavaString.clone s = some s' → Reachable s'

/-! ## Arithmetic lemmas about the byte codec -/

theorem leBytes_length (n : Nat) : (leBytes n).length = 8 := by
  simp [leBytes]

theorem leBytes_mem_lt (n : Nat) : ∀ x ∈ leBytes n, x < 256 := by
  intro x hx
  simp only [leBytes, List.mem_cons, List.not_mem_nil, or_false] at hx
  rcases hx with h | h | h | h | h | h | h | h <;> omega

theorem leVal_leBytes (n : Nat) (h : n < 2 ^ 64) : leVal (leBytes n) = n := by
  simp only [leBytes, leVal]
  norm_num
  omega

theorem leBytes_leVal (b0 b1 b2 b3 b4 b5 b6 b7 : Nat)
    (h0 : b0 < 256) (h1 : b1 < 256) (h2 : b2 < 256) (h3 : b3 < 256)
    (h4 : b4 < 256) (h5 : b5 < 256) (h6 : b6 < 256) (h7 : b7 < 256) :
    leBytes (leVal [b0, b1, b2, b3, b4, b5, b6, b7]) =
      [b0, b1, b2, b3, b4, b5, b6, b7] := by
  simp only [leBytes, leVal, List.cons.injEq, and_true]
  norm_num
  omega

theorem leVal_lt (bs : List Nat) (h : ∀ x ∈ bs, x < 256) :
    leVal bs < 256 ^ bs.length := by
  induction bs with
  | nil => simp [leVal]
  | cons b rest ih =>
    have hb : b < 256 := h b (List.mem_cons_self b rest)
    have hr := ih (fun x hx => h x (List.mem_cons_of_mem b hx))
    simp only [leVal, List.length_cons, pow_succ]
    calc b + 256 * leVal rest < 256 + 256 * leVal rest := by omega
      _ ≤ 256 * (leVal rest + 1) := by ring_nf; omega
      _ ≤ 256 * 256 ^ rest.length := by
          have : leVal rest + 1 ≤ 256 ^ rest.length := hr
          exact Nat.mul_le_mul_left 256 this
      _ = 256 ^ rest.length * 256 := by ring

theorem leVal_lt_word (bs : List Nat) (hlen : bs.length = 8)
    (h : ∀ x ∈ bs, x < 256) : leVal bs < 2 ^ 64 := by
  have := leVal_lt bs h
  rw [hlen] at this
  calc leVal bs < 256 ^ 8 := this
    _ = 2 ^ 64 := by norm_num

theorem byteswap64_lt (n : Nat) : byteswap64 n < 2 ^ 64 := by
  apply leVal_lt_word
  · simp [leBytes]
  · intro x hx
    exact leBytes_mem_lt n x (List.mem_reverse.mp hx)

theorem leBytes_leVal_list (bs : List Nat) (hlen : bs.length = 8)
    (hmem : ∀ x ∈ bs, x < 256) : leBytes (leVal bs) = bs := by
  rcases bs with _ | ⟨b0, bs⟩
  · simp at hlen
  rcases bs with _ | ⟨b1, bs⟩
  · simp at hlen
  rcases bs with _ | ⟨b2, bs⟩
  · simp at hlen
  rcases bs with _ | ⟨b3, bs⟩
  · simp at hlen
  rcases bs with _ | ⟨b4, bs⟩
  · simp at hlen
  rcases bs with _ | ⟨b5, bs⟩
  · simp at hlen
  rcases bs with _ | ⟨b6, bs⟩
  · simp at hlen
  rcases bs with _ | ⟨b7, bs⟩
  · simp at hlen
  have hbs : bs = [] := by
    simp only [List.length_cons] at hlen
    exact List.length_eq_zero.mp (by omega)
  subst hbs
  simp only [List.mem_cons, List.not_mem_nil, or_false] at hmem
  exact leBytes_leVal b0 b1 b2 b3 b4 b5 b6 b7
    (hmem b0 (by tauto)) (hmem b1 (by tauto)) (hmem b2 (by tauto))
    (hmem b3 (by tauto)) (hmem b4 (by tauto)) (hmem b5 (by tauto))
    (hmem b6 (by tauto)) (hmem b7 (by tauto))

theorem byteswap64_byteswap64 (n : Nat) (h : n < 2 ^ 64) :
    byteswap64 (byteswap64 n) = n := by
  unfold byteswap64
  rw [leBytes_leVal_list (leBytes n).reverse
    (by rw [List.length_reverse]; exact leBytes_length n)
    (fun x hx => leBytes_mem_lt n x (List.mem_reverse.mp hx))]
  rw [List.reverse_reverse]
  exact leVal_leBytes n h

theorem byteswap64_zero : byteswap64 0 = 0 := by decide

theorem byteswap64_small (t : Nat) (ht : t < 256) :
    byteswap64 t = 72057594037927936 * t := by
  simp only [byteswap64, leBytes, leVal, List.reverse_cons, List.reverse_nil,
    List.nil_append, List.cons_append, List.append_nil]
  norm_num
  omega

/-- The struct bytes written by the inline branch before the copy loop:
fifteen zero bytes and the encoded tag in the physically last byte. -/
theorem initBytes_eq (t : Nat) (ht : t < 256) :
    leBytes 0 ++ leBytes (byteswap64 t) = List.replicate 15 0 ++ [t] := by
  rw [byteswap64_small t ht]
  rw [show (List.replicate 15 (0 : Nat) ++ [t]) =
    [0, 0, 0, 0, 0, 0, 0, 0, 0, 0, 0, 0, 0, 0, 0, t] from by
      rw [show (List.replicate 15 (0 : Nat)) =
        [0, 0, 0, 0, 0, 0, 0, 0, 0, 0, 0, 0, 0, 0, 0] from by decide]
      rfl]
  simp only [leBytes, List.cons_append, List.nil_append, List.cons.injEq, and_true]
  norm_num
  omega

/-! ## Copy loop lemmas -/

theorem writeBytesAt_nil (buf : List Nat) (pos : Nat) :
    writeBytesAt buf pos [] = buf := by
  simp only [writeBytesAt, List.length_nil, List.append_nil, Nat.add_zero]
  exact List.take_append_drop pos buf

theorem copySlices_nil (buf : List Nat) (pos count : Nat) :
    copySlices [] buf pos count = some buf := rfl

theorem copySlices_cons (s : List Nat) (rest : List (List Nat))
    (buf : List Nat) (pos count : Nat) :
    copySlices (s :: rest) buf pos count =
      if count ≤ s.length ∧ pos + count ≤ buf.length then
        copySlices rest (writeBytesAt buf pos (s.take count)) (pos + count) count
      else none := rfl

theorem copySlices_zero (l : List (List Nat)) (buf : List Nat) (pos : Nat)
    (h : pos ≤ buf.length) : copySlices l buf pos 0 = some buf := by
  induction l with
  | nil => rfl
  | cons s rest ih =>
    rw [copySlices_cons, if_pos ⟨Nat.zero_le _, by omega⟩]
    rw [List.take_zero, writeBytesAt_nil, Nat.add_zero]
    exact ih

theorem copySlices_single (s : List Nat) (buf : List Nat) (count : Nat)
    (hs : s.length = count) (hb : count ≤ buf.length) :
    copySlices [s] buf 0 count = some (s ++ buf.drop count) := by
  rw [copySlices_cons, if_pos ⟨by omega, by omega⟩]
  have htake : s.take count = s := by
    rw [← hs]
    exact List.take_length s
  rw [copySlices_nil]
  simp only [writeBytesAt, htake, List.take_zero, List.nil_append, Nat.zero_add, hs]

theorem copySlices_two_none (s1 s2 : List Nat) (rest : List (List Nat))
    (buf : List Nat) (hpos : 0 < sumLens (s1 :: s2 :: rest)) :
    copySlices (s1 :: s2 :: rest) buf 0 (sumLens (s1 :: s2 :: rest)) = none := by
  have hsum : sumLens (s1 :: s2 :: rest) =
      s1.length + (s2.length + (rest.map List.length).sum) := by
    simp [sumLens]
  rw [copySlices_cons]
  split_ifs with h1
  · rw [copySlices_cons, if_neg]
    intro hcon
    omega
  · rfl

/-! ## Shape lemmas for constructed structs -/

/-- Decoding the data word of a 16-byte struct whose physically last byte
is t: the decoded pointer is t plus a multiple of 256. -/
theorem read_ptr_append_last (m : List Nat) (t : Nat) (hp : List Nat)
    (hlen : m.length = 15) (hmem : ∀ x ∈ m, x < 256) (ht : t < 256) :
    ∃ x, (RawJavaString.mk (m ++ [t]) hp).read_ptr = t + 256 * x := by
  have hdrop : (m ++ [t]).drop 8 = m.drop 8 ++ [t] := by
    rw [List.drop_append_eq_append_drop]
    congr 1
    rw [hlen]
    rfl
  have hdwlen : (m.drop 8 ++ [t]).length = 8 := by
    simp [hlen]
  have hdwmem : ∀ x ∈ m.drop 8 ++ [t], x < 256 := by
    intro x hx
    rcases List.mem_append.mp hx with h | h
    · exact hmem x (List.mem_of_mem_drop h)
    · simp only [List.mem_singleton] at h
      omega
  show ∃ x, byteswap64 (leVal ((m ++ [t]).drop 8)) = t + 256 * x
  rw [hdrop]
  have hswap : byteswap64 (leVal (m.drop 8 ++ [t])) =
      leVal (m.drop 8 ++ [t]).reverse := by
    unfold byteswap64
    rw [leBytes_leVal_list (m.drop 8 ++ [t]) hdwlen hdwmem]
  rw [hswap, List.reverse_append]
  exact ⟨leVal (m.drop 8).reverse, rfl⟩

/-- The struct of the heap branch decodes back to the allocator address,
and its len field decodes to the stored length. -/
theorem heap_struct_spec (n : Nat) (hp : List Nat) (hn : n < 2 ^ 64) :
    (RawJavaString.mk (leBytes n ++ leBytes (byteswap64 heapBaseAddr)) hp).read_ptr
        = heapBaseAddr
      ∧ (RawJavaString.mk (leBytes n ++ leBytes (byteswap64 heapBaseAddr)) hp).lenField
        = n
      ∧ (RawJavaString.mk (leBytes n ++ leBytes (byteswap64 heapBaseAddr)) hp).dataField
        = byteswap64 heapBaseAddr := by
  have htake : (leBytes n ++ leBytes (byteswap64 heapBaseAddr)).take 8 = leBytes n := by
    rw [show (8 : Nat) = (leBytes n).length from (leBytes_length n).symm]
    exact List.take_left (leBytes n) (leBytes (byteswap64 heapBaseAddr))
  have hdrop : (leBytes n ++ leBytes (byteswap64 heapBaseAddr)).drop 8 =
      leBytes (byteswap64 heapBaseAddr) := by
    rw [show (8 : Nat) = (leBytes n).length from (leBytes_length n).symm]
    exact List.drop_left (leBytes n) (leBytes (byteswap64 heapBaseAddr))
  refine ⟨?_, ?_, ?_⟩
  · show byteswap64
      (leVal ((leBytes n ++ leBytes (byteswap64 heapBaseAddr)).drop 8)) = heapBaseAddr
    rw [hdrop, leVal_leBytes (byteswap64 heapBaseAddr) (byteswap64_lt heapBaseAddr)]
    exact byteswap64_byteswap64 heapBaseAddr (by norm_num [heapBaseAddr])
  · show leVal ((leBytes n ++ leBytes (byteswap64 heapBaseAddr)).take 8) = n
    rw [htake]
    exact leVal_leBytes n hn
  · show leVal ((leBytes n ++ leBytes (byteswap64 heapBaseAddr)).drop 8) =
      byteswap64 heapBaseAddr
    rw [hdrop]
    exact leVal_leBytes (byteswap64 heapBaseAddr) (byteswap64_lt heapBaseAddr)

/-! ## The value computed by from_bytes -/

theorem max_intern_len_eq : RawJavaString.max_intern_len = 15 := rfl

theorem from_bytes_array_inline_le (l : List (List Nat))
    (hle : sumLens l ≤ RawJavaString.max_intern_len) :
    RawJavaString.from_bytes_array_inline l =
      match copySlices l
          (leBytes 0 ++ leBytes (byteswap64 ((sumLens l <<< 1) + 1))) 0 (sumLens l) with
      | some buf => some ⟨buf, []⟩
      | none => none := by
  unfold RawJavaString.from_bytes_array_inline
  rw [if_pos hle]

theorem from_bytes_array_inline_gt (l : List (List Nat))
    (hgt : ¬ sumLens l ≤ RawJavaString.max_intern_len) :
    RawJavaString.from_bytes_array_inline l =
      match copySlices l (List.replicate (sumLens l) 0) 0 (sumLens l) with
      | some hp => some ⟨leBytes (sumLens l) ++ leBytes (byteswap64 heapBaseAddr), hp⟩
      | none => none := by
  unfold RawJavaString.from_bytes_array_inline
  rw [if_neg hgt]

theorem sumLens_single (b : List Nat) : sumLens [b] = b.length := by
  simp [sumLens]

theorem from_bytes_eq_inline (b : List Nat) (hle : b.length ≤ 15) :
    RawJavaString.from_bytes b =
      some ⟨b ++ (List.replicate (15 - b.length) 0 ++ [(b.length <<< 1) + 1]), []⟩ := by
  unfold RawJavaString.from_bytes
  rw [from_bytes_array_inline_le [b] (by rw [sumLens_single, max_intern_len_eq]; exact hle)]
  rw [sumLens_single]
  have ht : (b.length <<< 1) + 1 < 256 := by
    rw [Nat.shiftLeft_eq]
    omega
  have hinit : leBytes 0 ++ leBytes (byteswap64 ((b.length <<< 1) + 1)) =
      List.replicate 15 0 ++ [(b.length <<< 1) + 1] := initBytes_eq _ ht
  rw [hinit]
  rw [copySlices_single b (List.replicate 15 0 ++ [(b.length <<< 1) + 1]) b.length rfl
    (by simp; omega)]
  have hdropinit : (List.replicate 15 0 ++ [(b.length <<< 1) + 1]).drop b.length =
      List.replicate (15 - b.length) 0 ++ [(b.length <<< 1) + 1] := by
    rw [List.drop_append_eq_append_drop, List.drop_replicate]
    congr 1
    rw [List.length_replicate, Nat.sub_eq_zero_of_le hle, List.drop_zero]
  rw [hdropinit]

theorem from_bytes_eq_heap (b : List Nat) (hgt : 15 < b.length) :
    RawJavaString.from_bytes b =
      some ⟨leBytes b.length ++ leBytes (byteswap64 heapBaseAddr), b⟩ := by
  unfold RawJavaString.from_bytes
  rw [from_bytes_array_inline_gt [b]
    (by rw [sumLens_single, max_intern_len_eq]; omega)]
  rw [sumLens_single]
  rw [copySlices_single b (List.replicate b.length 0) b.length rfl (by simp)]
  rw [List.drop_replicate, Nat.sub_self, List.replicate_zero, List.append_nil]

theorem from_bytes_total (b : List Nat) : ∃ s, RawJavaString.from_bytes b = some s := by
  by_cases hle : b.length ≤ 15
  · exact ⟨_, from_bytes_eq_inline b hle⟩
  · exact ⟨_, from_bytes_eq_heap b (by omega)⟩

/-! ## Decoding the two constructed shapes -/

theorem inline_struct_spec (b : List Nat) (hb : ByteOk b) (hle : b.length ≤ 15) :
    (RawJavaString.mk
        (b ++ (List.replicate (15 - b.length) 0 ++ [(b.length <<< 1) + 1])) []).get_bytes = b
    ∧ (RawJavaString.mk
        (b ++ (List.replicate (15 - b.length) 0 ++ [(b.length <<< 1) + 1])) []).is_interned = true
    ∧ (RawJavaString.mk
        (b ++ (List.replicate (15 - b.length) 0 ++ [(b.length <<< 1) + 1])) []).len = b.length
    ∧ (RawJavaString.mk
        (b ++ (List.replicate (15 - b.length) 0 ++ [(b.length <<< 1) + 1])) []).bytes.length = 16
    ∧ ByteOk (RawJavaString.mk
        (b ++ (List.replicate (15 - b.length) 0 ++ [(b.length <<< 1) + 1])) []).bytes
    ∧ (RawJavaString.mk
        (b ++ (List.replicate (15 - b.length) 0 ++ [(b.length <<< 1) + 1])) []).dataField ≠ 0 := by
  have htval : (b.length <<< 1) + 1 = 2 * b.length + 1 := by
    rw [Nat.shiftLeft_eq]
    ring
  have ht : (b.length <<< 1) + 1 < 256 := by omega
  have hassoc : b ++ (List.replicate (15 - b.length) 0 ++ [(b.length <<< 1) + 1]) =
      (b ++ List.replicate (15 - b.length) 0) ++ [(b.length <<< 1) + 1] :=
    (List.append_assoc _ _ _).symm
  have hmlen : (b ++ List.replicate (15 - b.length) 0).length = 15 := by
    simp
    omega
  have hmmem : ∀ x ∈ b ++ List.replicate (15 - b.length) 0, x < 256 := by
    intro x hx
    rcases List.mem_append.mp hx with h | h
    · exact hb x h
    · rw [List.eq_of_mem_replicate h]
      omega
  rw [hassoc]
  obtain ⟨x, hx⟩ := read_ptr_append_last (b ++ List.replicate (15 - b.length) 0)
    ((b.length <<< 1) + 1) [] hmlen hmmem ht
  have hmod2 : ((b.length <<< 1) + 1 + 256 * x) % 2 = 1 := by omega
  have hmod256 : ((b.length <<< 1) + 1 + 256 * x) % 256 = (b.length <<< 1) + 1 := by
    omega
  have hshift : ((b.length <<< 1) + 1) >>> 1 = b.length := by
    rw [Nat.shiftRight_eq_div_pow]
    omega
  have hinterned : (RawJavaString.mk
      ((b ++ List.replicate (15 - b.length) 0) ++ [(b.length <<< 1) + 1]) []).is_interned
      = true := by
    unfold RawJavaString.is_interned
    rw [hx, hmod2]
    rfl
  have htake : ((b ++ List.replicate (15 - b.length) 0) ++
      [(b.length <<< 1) + 1]).take b.length = b := by
    rw [List.append_assoc]
    rw [show b.length = b.length from rfl]
    have := List.take_left b
      (List.replicate (15 - b.length) 0 ++ [(b.length <<< 1) + 1])
    exact this
  refine ⟨?_, hinterned, ?_, ?_, ?_, ?_⟩
  · unfold RawJavaString.get_bytes
    rw [hinterned]
    simp only [if_true]
    rw [hx, hmod256, hshift]
    exact htake
  · unfold RawJavaString.len
    rw [hinterned]
    simp only [if_true]
    rw [hx, hmod256, hshift]
  · simp
    omega
  · intro y hy
    rcases List.mem_append.mp hy with h | h
    · exact hmmem y h
    · simp only [List.mem_singleton] at h
      omega
  · intro h0
    have hzero : (RawJavaString.mk
        ((b ++ List.replicate (15 - b.length) 0) ++ [(b.length <<< 1) + 1]) []).read_ptr
        = 0 := by
      unfold RawJavaString.read_ptr
      rw [h0]
      exact byteswap64_zero
    rw [hx] at hzero
    omega

theorem heap_result_spec (b : List Nat) (hb : ByteOk b) (hlen : b.length < 2 ^ 64) :
    (RawJavaString.mk (leBytes b.length ++ leBytes (byteswap64 heapBaseAddr)) b).get_bytes = b
    ∧ (RawJavaString.mk
        (leBytes b.length ++ leBytes (byteswap64 heapBaseAddr)) b).is_interned = false
    ∧ (RawJavaString.mk (leBytes b.length ++ leBytes (byteswap64 heapBaseAddr)) b).len = b.length
    ∧ (RawJavaString.mk
        (leBytes b.length ++ leBytes (byteswap64 heapBaseAddr)) b).bytes.length = 16
    ∧ ByteOk (RawJavaString.mk (leBytes b.length ++ leBytes (byteswap64 heapBaseAddr)) b).bytes
    ∧ (RawJavaString.mk
        (leBytes b.length ++ leBytes (byteswap64 heapBaseAddr)) b).dataField ≠ 0 := by
  obtain ⟨hrp, hlf, hdf⟩ := heap_struct_spec b.length b hlen
  have hinterned : (RawJavaString.mk
      (leBytes b.length ++ leBytes (byteswap64 heapBaseAddr)) b).is_interned = false := by
    unfold RawJavaString.is_interned
    rw [hrp]
    decide
  refine ⟨?_, hinterned, ?_, ?_, ?_, ?_⟩
  · unfold RawJavaString.get_bytes
    rw [hinterned]
    simp only [Bool.false_eq_true, if_false]
    rw [hlf]
    exact List.take_length b
  · unfold RawJavaString.len
    rw [hinterned]
    simp only [Bool.false_eq_true, if_false]
    exact hlf
  · simp [leBytes]
  · intro y hy
    rcases List.mem_append.mp hy with h | h
    · exact leBytes_mem_lt _ y h
    · exact leBytes_mem_lt _ y h
  · rw [hdf]
    decide

/-- The full specification of from_bytes on an honest byte slice: its
result round-trips through get_bytes, is interned exactly when the length
is at most max_intern_len, reports the original length, and keeps the
16-byte struct well-formed with a nonzero data word. -/
theorem from_bytes_spec (b : List Nat) (hb : ByteOk b) (hlen : b.length < 2 ^ 64)
    (s : RawJavaString) (h : RawJavaString.from_bytes b = some s) :
    s.get_bytes = b
    ∧ (s.is_interned = true ↔ b.length ≤ RawJavaString.max_intern_len)
    ∧ s.len = b.length
    ∧ s.bytes.length = 16
    ∧ ByteOk s.bytes
    ∧ s.dataField ≠ 0 := by
  rw [max_intern_len_eq]
  by_cases hle : b.length ≤ 15
  · rw [from_bytes_eq_inline b hle] at h
    have hs := Option.some.inj h
    obtain ⟨h1, h2, h3, h4, h5, h6⟩ := inline_struct_spec b hb hle
    rw [← hs]
    exact ⟨h1, by rw [h2]; simp [hle], h3, h4, h5, h6⟩
  · rw [from_bytes_eq_heap b (by omega)] at h
    have hs := Option.some.inj h
    obtain ⟨h1, h2, h3, h4, h5, h6⟩ := heap_result_spec b hb hlen
    rw [← hs]
    refine ⟨h1, ?_, h3, h4, h5, h6⟩
    rw [h2]
    simp
    omega

/-! ## from_bytes_array on general lists: defined exactly on lists that
are singletons or have total length zero, where it agrees with from_bytes
of the concatenation -/

theorem from_bytes_nil : RawJavaString.from_bytes [] = some RawJavaString.new := by
  decide

theorem sumLens_eq_length_flatten (l : List (List Nat)) :
    sumLens l = l.flatten.length := by
  rw [List.length_flatten]
  rfl

theorem fba_zero (l : List (List Nat)) (h : sumLens l = 0) :
    RawJavaString.from_bytes_array_inline l = some RawJavaString.new := by
  rw [from_bytes_array_inline_le l (by rw [h, max_intern_len_eq]; omega)]
  rw [h]
  rw [copySlices_zero l _ 0 (Nat.zero_le _)]
  rfl

theorem fba_multi_none (l : List (List Nat)) (h2 : 2 ≤ l.length)
    (hpos : 0 < sumLens l) : RawJavaString.from_bytes_array_inline l = none := by
  rcases l with _ | ⟨s1, _ | ⟨s2, rest⟩⟩
  · simp at h2
  · simp at h2
  by_cases hle : sumLens (s1 :: s2 :: rest) ≤ RawJavaString.max_intern_len
  · rw [from_bytes_array_inline_le _ hle, copySlices_two_none s1 s2 rest _ hpos]
  · rw [from_bytes_array_inline_gt _ hle, copySlices_two_none s1 s2 rest _ hpos]

/-- Whenever from_bytes_array completes without an out-of-bounds access,
its result is exactly the result of from_bytes on the concatenation of
the slices. -/
theorem fba_eq_from_bytes_flatten (l : List (List Nat)) (s : RawJavaString)
    (h : RawJavaString.from_bytes_array l = some s) :
    RawJavaString.from_bytes l.flatten = some s := by
  rcases l with _ | ⟨b, rest⟩
  · have : RawJavaString.from_bytes_array_inline [] = some RawJavaString.new :=
      fba_zero [] rfl
    unfold RawJavaString.from_bytes_array at h
    rw [this] at h
    simp only [List.flatten_nil]
    rw [from_bytes_nil, h]
  rcases rest with _ | ⟨b2, rest2⟩
  · have hfl : ([b] : List (List Nat)).flatten = b := by simp
    rw [hfl]
    exact h
  by_cases hz : sumLens (b :: b2 :: rest2) = 0
  · have hfb : RawJavaString.from_bytes_array_inline (b :: b2 :: rest2) =
        some RawJavaString.new := fba_zero _ hz
    unfold RawJavaString.from_bytes_array at h
    rw [hfb] at h
    have hfl : (b :: b2 :: rest2).flatten = [] := by
      apply List.eq_nil_of_length_eq_zero
      rw [← sumLens_eq_length_flatten]
      exact hz
    rw [hfl, from_bytes_nil, h]
  · exfalso
    have : RawJavaString.from_bytes_array_inline (b :: b2 :: rest2) = none :=
      fba_multi_none _ (by simp) (by omega)
    unfold RawJavaString.from_bytes_array at h
    rw [this] at h
    exact Option.noConfusion h

/-! ## GoodRaw: canonical form of every reachable struct -/

theorem fba_goodRaw (l : List (List Nat)) (hwf : ∀ b ∈ l, ByteOk b)
    (hlen : sumLens l < 2 ^ 64) (s : RawJavaString)
    (h : RawJavaString.from_bytes_array l = some s) : GoodRaw s := by
  refine ⟨l.flatten, ?_, ?_, fba_eq_from_bytes_flatten l s h⟩
  · intro x hx
    obtain ⟨piece, hpiece, hxin⟩ := List.mem_flatten.mp hx
    exact hwf piece hpiece x hxin
  · rw [← sumLens_eq_length_flatten]
    exact hlen

theorem goodRaw_spec (s : RawJavaString) (h : GoodRaw s) :
    ByteOk s.get_bytes
    ∧ s.get_bytes.length < 2 ^ 64
    ∧ s.get_bytes.length = s.len
    ∧ (s.is_interned = true ↔ s.len ≤ RawJavaString.max_intern_len)
    ∧ s.bytes.length = 16
    ∧ s.dataField ≠ 0 := by
  obtain ⟨b, hb, hlen, heq⟩ := h
  obtain ⟨h1, h2, h3, h4, _h5, h6⟩ := from_bytes_spec b hb hlen s heq
  rw [h1, h3]
  exact ⟨hb, hlen, rfl, h2, h4, h6⟩

theorem charBoundary_le (b : List Nat) (i : Nat)
    (h : is_char_boundary b i = true) : i ≤ b.length := by
  unfold is_char_boundary at h
  split_ifs at h <;> omega

/-- Every reachable struct is in canonical form. -/
theorem reachable_goodRaw (s : RawJavaString) (h : Reachable s) : GoodRaw s := by
  induction h with
  | new =>
    exact ⟨[], fun x hx => absurd hx (List.not_mem_nil x), by norm_num, from_bytes_nil⟩
  | ofBytes b s hb hlen heq =>
    exact ⟨b, hb, hlen, heq⟩
  | ofArray l s hwf hlen heq =>
    exact fba_goodRaw l hwf hlen s heq
  | setStep s s' b _hr hb hlen heq _ih =>
    exact ⟨b, hb, hlen, heq⟩
  | pushStep s s' b _hr hb hlen heq ih =>
    obtain ⟨hok, hblen, _, _, _, _⟩ := goodRaw_spec s ih
    unfold JavaString.push_str at heq
    obtain ⟨r, hr, hmk⟩ := Option.map_eq_some'.mp heq
    have hrs : r = s' := congrArg JavaString.data hmk
    subst hrs
    apply fba_goodRaw [JavaString.as_bytes ⟨s⟩, b] _ _ r hr
    · intro piece hpiece
      rcases List.mem_cons.mp hpiece with h | h
      · rw [h]
        exact hok
      · simp only [List.mem_singleton] at h
        rw [h]
        exact hb
    · simpa [sumLens] using hlen
  | truncStep s s' n _hr heq ih =>
    obtain ⟨hok, hblen, _, _, _, _⟩ := goodRaw_spec s ih
    unfold JavaString.truncate at heq
    split_ifs at heq with hcase
    obtain ⟨r, hr, hmk⟩ := Option.map_eq_some'.mp heq
    have hrs : r = s' := congrArg JavaString.data hmk
    subst hrs
    refine ⟨(JavaString.as_bytes ⟨s⟩).take n, ?_, ?_, hr⟩
    · intro x hx
      exact hok x (List.mem_of_mem_take hx)
    · have h1 : ((JavaString.as_bytes ⟨s⟩).take n).length =
        min n (JavaString.as_bytes ⟨s⟩).length := List.length_take n _
      have h2 : (JavaString.as_bytes ⟨s⟩).length < 2 ^ 64 := hblen
      omega
  | popStep s s' c _hr heq ih =>
    obtain ⟨hok, hblen, _, _, _, _⟩ := goodRaw_spec s ih
    unfold JavaString.pop at heq
    split at heq
    · exact Option.noConfusion heq
    split at heq
    · have hpair := Option.some.inj heq
      have : s = s' := by
        have := congrArg Prod.snd hpair
        exact congrArg JavaString.data this
      rw [← this]
      exact ih
    · obtain ⟨r, hr, hmk⟩ := Option.map_eq_some'.mp heq
      have hrs : r = s' := by
        have := congrArg Prod.snd hmk
        exact congrArg JavaString.data this
      subst hrs
      refine ⟨_, ?_, ?_, hr⟩
      · intro x hx
        exact hok x (List.mem_of_mem_take hx)
      · refine lt_of_le_of_lt ?_ hblen
        rw [List.length_take]
        exact Nat.min_le_right _ _
  | removeStep s s' i c _hr heq ih =>
    obtain ⟨hok, hblen, _, _, _, _⟩ := goodRaw_spec s ih
    unfold JavaString.remove at heq
    split_ifs at heq with hbound
    split at heq
    · exact Option.noConfusion heq
    · obtain ⟨r, hr, hmk⟩ := Option.map_eq_some'.mp heq
      have hrs : r = s' := by
        have := congrArg Prod.snd hmk
        exact congrArg JavaString.data this
      subst hrs
      apply fba_goodRaw _ _ _ r hr
      · intro piece hpiece
        rcases List.mem_cons.mp hpiece with h | h
        · rw [h]
          intro x hx
          exact hok x (List.mem_of_mem_take hx)
        · simp only [List.mem_singleton] at h
          rw [h]
          intro x hx
          exact hok x (List.mem_of_mem_drop hx)
      · have hle := charBoundary_le _ _ hbound
        have hlen2 : (JavaString.as_bytes ⟨s⟩).length < 2 ^ 64 := hblen
        simp only [sumLens, List.map_cons, List.map_nil, List.sum_cons,
          List.sum_nil, Nat.add_zero, List.length_take, List.length_drop]
        omega
  | cloneStep s s' _hr heq ih =>
    obtain ⟨hok, hblen, _, _, _, _⟩ := goodRaw_spec s ih
    exact ⟨s.get_bytes, hok, hblen, heq⟩

/-! ## The claims -/

/-- Claim C1 (code bug): the claim says from_bytes_array produces the
concatenation of its slices, but the copy loop of from_bytes_array_inline
copies len (the TOTAL length) bytes from every slice and advances the
write cursor by len, instead of using each slice's own length.  On the
slices foo and bar this reads 6 bytes from each 3-byte slice and writes
12 bytes into a 6-byte destination: an out-of-bounds access (none), not
the concatenation foobar that the spec and the push_str doctest promise.
The second conjunct shows the concatenated content itself is handled
correctly by the single-slice path, confirming that the loop, not the
data, is at fault. -/
theorem c1_concat_bug_eval :
    RawJavaString.from_bytes_array [[102, 111, 111], [98, 97, 114]] = none
    ∧ ∃ s, RawJavaString.from_bytes [102, 111, 111, 98, 97, 114] = some s
        ∧ s.get_bytes = [102, 111, 111, 98, 97, 114] := by
  refine ⟨by decide, (RawJavaString.from_bytes [102, 111, 111, 98, 97, 114]).getD
    RawJavaString.new, by decide, by decide⟩

/-- Claim C2 (confirmed): for every byte slice b (valid UTF-8, as the
claim assumes), as_bytes of from_bytes b recovers b exactly, in both the
inline and the heap regime. -/
theorem c2_roundtrip (b : List Nat) (hb : ByteOk b) (hlen : b.length < 2 ^ 64)
    (hutf : utf8Valid b = true) :
    ∃ s, RawJavaString.from_bytes b = some s ∧ s.get_bytes = b := by
  obtain ⟨s, hs⟩ := from_bytes_total b
  exact ⟨s, hs, (from_bytes_spec b hb hlen s hs).1⟩

/-- Witness for C2 at one inline input (hi) and one heap input (16 times
h, one byte past the inline capacity). -/
theorem c2_roundtrip_witness :
    (∃ s, RawJavaString.from_bytes [104, 105] = some s ∧ s.get_bytes = [104, 105])
    ∧ ∃ s, RawJavaString.from_bytes (List.replicate 16 104) = some s
        ∧ s.get_bytes = List.replicate 16 104 :=
  ⟨c2_roundtrip [104, 105] (by decide) (by decide) (by decide),
   c2_roundtrip (List.replicate 16 104) (by decide) (by decide) (by decide)⟩

/-- Claim C3 (confirmed): from_bytes yields an interned (inline) string
exactly when the input length is at most max_intern_len, which equals
2 * size_of usize - 1 = 15 on the modelled host. -/
theorem c3_mode (b : List Nat) (s : RawJavaString) (hb : ByteOk b)
    (hlen : b.length < 2 ^ 64) (h : RawJavaString.from_bytes b = some s) :
    (s.is_interned = true ↔ b.length ≤ RawJavaString.max_intern_len)
    ∧ RawJavaString.max_intern_len = 2 * usizeBytes - 1 :=
  ⟨(from_bytes_spec b hb hlen s h).2.1, by decide⟩

/-- Witness for C3 at the two boundary lengths 15 (inline) and 16 (heap). -/
theorem c3_mode_witness :
    ((RawJavaString.from_bytes (List.replicate 15 97)).getD
      RawJavaString.new).is_interned = true
    ∧ ((RawJavaString.from_bytes (List.replicate 16 97)).getD
      RawJavaString.new).is_interned = false := by
  constructor
  · exact ((c3_mode (List.replicate 15 97) _ (by decide) (by decide)
      (by decide)).1).mpr (by decide)
  · have h := (c3_mode (List.replicate 16 97)
      ((RawJavaString.from_bytes (List.replicate 16 97)).getD RawJavaString.new)
      (by decide) (by decide) (by decide)).1
    cases hsi : ((RawJavaString.from_bytes (List.replicate 16 97)).getD
        RawJavaString.new).is_interned
    · rfl
    · exact absurd (h.mp hsi) (by decide)

/-- Claim C4 (confirmed): decoding is the exact inverse of encoding: for
every word value, read_ptr recovers verbatim what write_ptr_unchecked
stored, and write_ptr behaves the same whenever it does not panic (i.e. on
every nonzero value). -/
theorem c4_ptr_codec (s : RawJavaString) (v : Nat) (hlen : s.bytes.length = 16)
    (hv : v < 2 ^ 64) :
    (s.write_ptr_unchecked v).read_ptr = v
    ∧ (v ≠ 0 → ∃ s', s.write_ptr v = some s' ∧ s'.read_ptr = v) := by
  have hlen8 : (s.bytes.take 8).length = 8 := by
    rw [List.length_take]
    omega
  have hd : ((s.bytes.take 8) ++ leBytes (byteswap64 v)).drop 8 =
      leBytes (byteswap64 v) := by
    rw [List.drop_append_eq_append_drop, hlen8]
    have h1 : (s.bytes.take 8).drop 8 = [] := by
      apply List.eq_nil_of_length_eq_zero
      rw [List.length_drop, hlen8]
    rw [h1, Nat.sub_self, List.drop_zero, List.nil_append]
  have hrp : byteswap64 (leVal (((s.bytes.take 8) ++ leBytes (byteswap64 v)).drop 8)) = v := by
    rw [hd, leVal_leBytes _ (byteswap64_lt v)]
    exact byteswap64_byteswap64 v hv
  refine ⟨hrp, fun hne => ?_⟩
  have hswne : byteswap64 v ≠ 0 := by
    intro h0
    have := byteswap64_byteswap64 v hv
    rw [h0, byteswap64_zero] at this
    exact hne this.symm
  refine ⟨⟨s.bytes.take 8 ++ leBytes (byteswap64 v), s.heap⟩, ?_, hrp⟩
  unfold RawJavaString.write_ptr
  rw [if_neg hswne]

/-- Witness for C4 at new and the word values 2 (even: a heap pointer
pattern) and 5 (odd: an inline tag pattern). -/
theorem c4_ptr_codec_witness :
    (RawJavaString.new.write_ptr_unchecked 2).read_ptr = 2
    ∧ (RawJavaString.new.write_ptr_unchecked 5).read_ptr = 5 :=
  ⟨(c4_ptr_codec RawJavaString.new 2 (by decide) (by decide)).1,
   (c4_ptr_codec RawJavaString.new 5 (by decide) (by decide)).1⟩

/-- Claim C5 (code bug): the claim (and the standard String contract the
crate cites) requires truncation off a character boundary to be rejected
loudly, but JavaString::truncate slices the byte buffer with no boundary
check: truncating the 4-byte sparkle-heart string to 1 byte silently
succeeds and leaves content that is not valid UTF-8, violating invariant
I5.  (remove, by contrast, does panic off a boundary via str slicing.) -/
theorem c5_truncate_bug_eval :
    JavaString.truncate
        ⟨(RawJavaString.from_bytes [240, 159, 146, 150]).getD RawJavaString.new⟩ 1
      = some ⟨(RawJavaString.from_bytes [240]).getD RawJavaString.new⟩
    ∧ utf8Valid (JavaString.as_bytes
        ⟨(RawJavaString.from_bytes [240]).getD RawJavaString.new⟩) = false
    ∧ utf8Valid [240, 159, 146, 150] = true := by
  refine ⟨by decide, by decide, by decide⟩

/-- Claim C6 (code bug): from_utf8 does reject ill-formed input with an
error carrying the offset of the first invalid sequence (valid_up_to = 1
here), but it does NOT return the original bytes to the caller, although
its own doc comment promises the moved-in vector back: the error value is
identical for two different inputs, so the bytes are unrecoverable from
the failed call. -/
theorem c6_from_utf8_eval :
    JavaString.from_utf8 [0, 159, 146, 150] = some (Except.error ⟨1⟩)
    ∧ JavaString.from_utf8 [0, 160, 146, 150] = some (Except.error ⟨1⟩)
    ∧ [0, 159, 146, 150] ≠ [0, 160, 146, 150] :=
  ⟨rfl, rfl, by decide⟩

/-- Claim C7 (confirmed): clone is from_bytes of the observed bytes (a
full content copy), the clone observes the same bytes as the original,
and replacing the content of the clone (set_bytes) yields the new bytes
while the original still observes its own. -/
theorem c7_clone_deep (b b2 : List Nat) (s : RawJavaString)
    (hb : ByteOk b) (hlen : b.length < 2 ^ 64)
    (hb2 : ByteOk b2) (hlen2 : b2.length < 2 ^ 64)
    (h : RawJavaString.from_bytes b = some s) :
    RawJavaString.clone s = RawJavaString.from_bytes s.get_bytes
    ∧ ∃ c, RawJavaString.clone s = some c ∧ c.get_bytes = b
        ∧ ∃ c2, RawJavaString.set_bytes c b2 = some c2 ∧ c2.get_bytes = b2
            ∧ s.get_bytes = b := by
  have hgb : s.get_bytes = b := (from_bytes_spec b hb hlen s h).1
  refine ⟨rfl, ?_⟩
  obtain ⟨c, hc⟩ := from_bytes_total s.get_bytes
  have hcget : c.get_bytes = b := by
    have := from_bytes_spec b hb hlen c (by rw [← hgb]; exact hc)
    exact this.1
  obtain ⟨c2, hc2⟩ := from_bytes_total b2
  have hc2get : c2.get_bytes = b2 := (from_bytes_spec b2 hb2 hlen2 c2 hc2).1
  exact ⟨c, hc, hcget, c2, hc2, hc2get, hgb⟩

/-- Witness for C7: clone an inline string a, replace the clone with bc. -/
theorem c7_clone_deep_witness :
    ∃ c, RawJavaString.clone ((RawJavaString.from_bytes [97]).getD RawJavaString.new)
        = some c ∧ c.get_bytes = [97]
      ∧ ∃ c2, RawJavaString.set_bytes c [98, 99] = some c2 ∧ c2.get_bytes = [98, 99]
          ∧ ((RawJavaString.from_bytes [97]).getD RawJavaString.new).get_bytes = [97] :=
  (c7_clone_deep [97] [98, 99] ((RawJavaString.from_bytes [97]).getD RawJavaString.new)
    (by decide) (by decide) (by decide) (by decide) (by decide)).2

/-- Claim C8 (confirmed): every reachable handle is a 2-word (16-byte)
struct whose data word is never the all-zero bit pattern; the canonical
empty string stores the encoded tag 1 (read_ptr new = 1).  This nonzero
discriminant is what lets the host compiler use the zero pattern as the
absent case of an optional handle without an extra word. -/
theorem c8_nonzero_discriminant (s : RawJavaString) (h : Reachable s) :
    s.bytes.length = 2 * usizeBytes
    ∧ s.dataField ≠ 0
    ∧ RawJavaString.new.read_ptr = 1 := by
  obtain ⟨_, _, _, _, h16, hnz⟩ := goodRaw_spec s (reachable_goodRaw s h)
  exact ⟨by rw [h16]; decide, hnz, by decide⟩

/-- Witness for C8 at the canonical empty handle. -/
theorem c8_nonzero_discriminant_witness :
    RawJavaString.new.bytes.length = 2 * usizeBytes
    ∧ RawJavaString.new.dataField ≠ 0
    ∧ RawJavaString.new.read_ptr = 1 :=
  c8_nonzero_discriminant RawJavaString.new Reachable.new

/-- Claim C9 (confirmed): the capacity surface is pure API theater:
with_capacity ignores its argument and returns the empty string, capacity
always equals the length, and reserve, reserve_exact, shrink_to_fit and
shrink_to return the string unchanged. -/
theorem c9_capacity_theater (s : JavaString) (n : Nat) :
    JavaString.with_capacity n = JavaString.new
    ∧ JavaString.as_bytes (JavaString.with_capacity n) = []
    ∧ s.capacity = s.len
    ∧ s.capacity = (JavaString.as_bytes s).length
    ∧ s.reserve n = s
    ∧ s.reserve_exact n = s
    ∧ s.shrink_to_fit = s
    ∧ s.shrink_to n = s :=
  ⟨rfl, by show JavaString.as_bytes JavaString.new = []; decide,
   rfl, rfl, rfl, rfl, rfl, rfl⟩

/-- Claim C10 counterexample: the claim quantifies over sequences that
include push_str, but push_str on foo and bar never produces a handle at
all: it hits the out-of-bounds copy of the from_bytes_array loop
(undefined behavior, modelled as none), so the claimed invariant over
every operation sequence fails at this first push_str. -/
theorem c10_push_str_undefined :
    JavaString.push_str
      ⟨(RawJavaString.from_bytes [102, 111, 111]).getD RawJavaString.new⟩
      [98, 97, 114] = none := by
  decide

/-- Claim C10 as amended (restricted to operation applications that
complete without the multi-slice copy bug, which is what the Reachable
predicate encodes): after any sequence of completed operations the handle
is interned iff its length is at most max_intern_len, and heap-backed iff
the length exceeds it. -/
theorem c10_mode_invariant (s : RawJavaString) (h : Reachable s) :
    (s.is_interned = true ↔ s.len ≤ RawJavaString.max_intern_len)
    ∧ (s.is_interned = false ↔ RawJavaString.max_intern_len < s.len) := by
  have hiff := (goodRaw_spec s (reachable_goodRaw s h)).2.2.2.1
  refine ⟨hiff, ?_, ?_⟩
  · intro hf
    by_contra hcon
    have hle : s.len ≤ RawJavaString.max_intern_len := by omega
    have := hiff.mpr hle
    rw [hf] at this
    exact Bool.noConfusion this
  · intro hlt
    cases hsi : s.is_interned
    · rfl
    · have := hiff.mp hsi
      omega

/-- Witness for the amended C10: a truncated heap-backed string becomes
inline again.  The 16-byte string aaaaaaaaaaaaaaaa is heap-backed; after
truncate to 3 bytes the result is reachable and interned. -/
theorem c10_mode_invariant_witness :
    ((RawJavaString.from_bytes (List.replicate 16 97)).getD
      RawJavaString.new).is_interned = false
    ∧ (((JavaString.truncate
        ⟨(RawJavaString.from_bytes (List.replicate 16 97)).getD RawJavaString.new⟩
        3).getD JavaString.new).data).is_interned = true := by
  have hbig : Reachable ((RawJavaString.from_bytes (List.replicate 16 97)).getD
      RawJavaString.new) :=
    Reachable.ofBytes (List.replicate 16 97) _ (by decide) (by decide) (by decide)
  have hsmall : Reachable (((JavaString.truncate
      ⟨(RawJavaString.from_bytes (List.replicate 16 97)).getD RawJavaString.new⟩
      3).getD JavaString.new).data) :=
    Reachable.truncStep _ _ 3 hbig (by decide)
  constructor
  · exact ((c10_mode_invariant _ hbig).2).mpr (by decide)
  · exact ((c10_mode_invariant _ hsmall).1).mpr (by decide)

end JStr
